import Mathlib

/-!
Verification of the resume-tailoring script (`resume_tailor_script.py`).

Strings manipulated by the script are modelled as Lean `String` / `List Char`
(the script only ever handles ASCII placeholder keys, skill names and HTML
fragments, so the ASCII fragment of Python's `str.lower` / `str.strip` is the
relevant one).  Python's substring test `a in b`, `str.replace`, `str.strip`
and `str.lower` are given explicit executable models on `List Char`.  The
external collaborators (`json.loads`, the language model, the PDF renderer)
are abstracted: `json.loads` becomes an `Option`-valued parameter, and the
language-model responses become plain string inputs.
-/

set_option maxHeartbeats 1000000
set_option linter.unusedVariables false

/-- Left brace character, written via its code point to keep placeholder
tokens readable in definitions. -/
def lbrace : Char := Char.ofNat 123

/-- Right brace character. -/
def rbrace : Char := Char.ofNat 125

/-- Newline character. -/
def nlChar : Char := Char.ofNat 10

/-- Decides whether `pat` is a prefix of `hay`.  This is the matching step of
Python's substring test and of `str.replace`. -/
def startsWithL : List Char → List Char → Bool
  | _, [] => true
  | [], _ :: _ => false
  | c :: cs, d :: ds => c == d && startsWithL cs ds

/-- Model of Python's substring test: `containsL hay pat` decides `pat in hay`
(`true` when `pat` occurs contiguously inside `hay`; the empty pattern occurs
in every string, as in Python). -/
def containsL : List Char → List Char → Bool
  | [], pat => pat.isEmpty
  | c :: rest, pat => startsWithL (c :: rest) pat || containsL rest pat

/-- Model of Python's `str.lower` on the ASCII fragment used by the script. -/
def lowerL (l : List Char) : List Char := l.map Char.toLower

/-- Model of Python's `str.strip()` (no argument): drop whitespace from both
ends. -/
def stripL (l : List Char) : List Char :=
  ((l.dropWhile Char.isWhitespace).reverse.dropWhile Char.isWhitespace).reverse

/-- Model of `normalize_skill` from the script: `s.lower().strip()`. -/
def normalize_skill (s : String) : List Char := stripL (lowerL s.data)

/-- Job profile record, the JSON schema produced by `extract_job_profile`
(each skill field an ordered sequence of strings). -/
structure JobProfile where
  required_skills : List String
  preferred_skills : List String
  tools : List String
  responsibilities : List String
  soft_skills : List String
  keywords : List String
  job_title : String
  company_name : String

/-- Normalized job terms, as collected by `build_relevant_skills`: the
normalized strings of `required_skills`, `preferred_skills`, `tools` and
`keywords` (not `responsibilities` or `soft_skills`).  The script collects
them into a set; a list is an adequate model because the set is only used
for `any` and membership tests. -/
def jobTermsOf (p : JobProfile) : List (List Char) :=
  (p.required_skills ++ p.preferred_skills ++ p.tools ++ p.keywords).map normalize_skill

/-- The `ALWAYS_KEEP` set from `build_relevant_skills`, in source order. -/
def ALWAYS_KEEP : List String :=
  ["git", "github", "debugging", "react", "next.js",
   "node.js", "express.js", "sql", "mysql", "mongodb"]

/-- The retention test applied to each catalog skill inside
`build_relevant_skills`:
`any(term in norm or norm in term for term in job_terms) or norm in ALWAYS_KEEP`. -/
def skill_is_kept (job_terms : List (List Char)) (skill : String) : Bool :=
  let norm := normalize_skill skill
  job_terms.any (fun term => containsL norm term || containsL term norm)
    || ALWAYS_KEEP.any (fun a => norm == a.data)

/-- Model of `build_relevant_skills`: the master catalog (a Python dict,
modelled as an ordered association list) is traversed in order; for each
category the kept skills are collected in order, and the category is added
to the result only when its kept list is nonempty.  The catalog, loaded from
`skills.json` in the script, is taken as a parameter. -/
def build_relevant_skills (job_profile : JobProfile)
    (master : List (String × List String)) : List (String × List String) :=
  match master with
  | [] => []
  | (category, skills) :: rest =>
    let kept := skills.filter (skill_is_kept (jobTermsOf job_profile))
    let tail := build_relevant_skills job_profile rest
    if kept.isEmpty then tail else (category, kept) :: tail

/-- Retention rule restated from the specification's wording, for the
refinement comparison of claim C1: a skill is retained when its normalized
form is a substring of some job term, or some job term is a substring of it,
or it belongs to the always-keep list. -/
def spec_retains (job_profile : JobProfile) (skill : String) : Bool :=
  let norm := normalize_skill skill
  (jobTermsOf job_profile).any (fun term => containsL term norm || containsL norm term)
    || ALWAYS_KEEP.any (fun a => norm == a.data)

/-- Filter restated from the specification's wording for claim C1: the master
catalog with each category restricted to retained skills, empty categories
omitted. -/
def spec_filter (job_profile : JobProfile)
    (master : List (String × List String)) : List (String × List String) :=
  (master.map (fun cs => (cs.1, cs.2.filter (spec_retains job_profile)))).filter
    (fun cs => !cs.2.isEmpty)

/-- Restriction of a catalog to always-kept skills, restated from the
specification's wording for claim C2. -/
def always_keep_only (master : List (String × List String)) : List (String × List String) :=
  (master.map (fun cs =>
      (cs.1, cs.2.filter (fun s => ALWAYS_KEEP.any (fun a => normalize_skill s == a.data))))).filter
    (fun cs => !cs.2.isEmpty)

/-- The job profile of the specification's concrete example:
`{"required_skills": ["sql"]}` with all other fields empty. -/
def sqlProfile : JobProfile :=
  { required_skills := ["sql"], preferred_skills := [], tools := [],
    responsibilities := [], soft_skills := [], keywords := [],
    job_title := "", company_name := "" }

/-- A job profile whose term-relevant fields are all empty. -/
def emptyTermsProfile : JobProfile :=
  { required_skills := [], preferred_skills := [], tools := [],
    responsibilities := ["ship features"], soft_skills := ["teamwork"], keywords := [],
    job_title := "Engineer", company_name := "Acme" }

/-- A small concrete catalog used by witnesses. -/
def witnessCatalog : List (String × List String) :=
  [("Databases", ["MySQL", "Redis"]), ("Languages", ["Haskell"])]

/-- HTML fragment of a category header row emitted by
`generate_skills_table_html`. -/
def categoryRowHtml (category : String) : String :=
  "<tr><td class=\"category\">" ++ category ++ "</td><td></td></tr>"

/-- HTML fragment of one two-skill row emitted by
`generate_skills_table_html`. -/
def skillRowHtml (left right : String) : String :=
  "<tr><td class='skill-item'>" ++ left ++ "</td><td class='skill-item'>" ++ right ++ "</td></tr>"

/-- Pairing of a skill list two at a time, as done by the `range(0, len(skills), 2)`
loop of `generate_skills_table_html`; a trailing odd skill is paired with the
empty string. -/
def pairRows : List String → List (String × String)
  | [] => []
  | [a] => [(a, "")]
  | a :: b :: rest => (a, b) :: pairRows rest

/-- Rows emitted for one category: the header row followed by that category's
skill rows. -/
def categoryRows (category : String) (skills : List String) : List String :=
  categoryRowHtml category :: (pairRows skills).map (fun lr => skillRowHtml lr.1 lr.2)

/-- Model of `generate_skills_table_html`: rows are accumulated across the
categories in order, joined with newlines and wrapped in a table element. -/
def generate_skills_table_html (filtered_skills : List (String × List String)) : String :=
  "<table>\n"
    ++ String.intercalate "\n" (filtered_skills.flatMap (fun cs => categoryRows cs.1 cs.2))
    ++ "\n</table>"

/-- Python values as far as the script can observe results of `json.loads`:
strings, numbers, booleans, `None`, lists and string-keyed dicts. -/
inductive PyValue where
  | str : String → PyValue
  | int : Int → PyValue
  | bool : Bool → PyValue
  | null : PyValue
  | list : List PyValue → PyValue
  | dict : List (String × PyValue) → PyValue

/-- The fixed all-empty job-profile record returned by the `except` branch of
`extract_job_profile`. -/
def empty_job_profile : PyValue :=
  PyValue.dict
    [("required_skills", PyValue.list []), ("preferred_skills", PyValue.list []),
     ("tools", PyValue.list []), ("responsibilities", PyValue.list []),
     ("soft_skills", PyValue.list []), ("keywords", PyValue.list []),
     ("job_title", PyValue.str ""), ("company_name", PyValue.str "")]

/-- Model of `extract_job_profile`: the language-model response text is
handed to `json.loads`; the parsed value is returned unchanged, and the
all-empty record is returned when parsing raises.  `json.loads` is an
external library function and is abstracted as an `Option`-valued parameter
(`none` models a parse exception). -/
def extract_job_profile (json_loads : String → Option PyValue)
    (response_text : String) : PyValue :=
  match json_loads response_text with
  | some value => value
  | none => empty_job_profile

/-- Fuel-driven worker for the `str.replace` model; the fuel is the length of
the haystack, which suffices because every step consumes at least one
character when the pattern is nonempty. -/
def replaceGo (pat rep : List Char) : Nat → List Char → List Char
  | _, [] => []
  | 0, hay => hay
  | fuel + 1, c :: rest =>
    if startsWithL (c :: rest) pat then
      rep ++ replaceGo pat rep fuel (List.drop (pat.length - 1) rest)
    else
      c :: replaceGo pat rep fuel rest

/-- Model of Python's `str.replace` (all occurrences, leftmost first,
non-overlapping) for nonempty patterns; every call site in the script uses a
nonempty pattern, so the empty-pattern corner of Python is not modelled. -/
def replaceAll (hay pat rep : List Char) : List Char :=
  if pat.isEmpty then hay else replaceGo pat rep hay.length hay

/-- Placeholder token of a key: two braces on each side, as produced by the
f-string of `fill_static_placeholders` and the literals of
`fill_resume_template`. -/
def tokL (key : String) : List Char :=
  lbrace :: lbrace :: (key.data ++ [rbrace, rbrace])

/-- Identity profile built by `load_profile` from the environment. -/
structure Profile where
  FIRST_NAME : String
  LAST_NAME : String
  EMAIL : String
  PHONE : String
  ADDRESS : String
  GITHUB : String
  LINKEDIN : String

/-- The dict built by `load_profile`, in source (insertion) order. -/
def profileItems (p : Profile) : List (String × String) :=
  [("FIRST_NAME", p.FIRST_NAME), ("LAST_NAME", p.LAST_NAME), ("EMAIL", p.EMAIL),
   ("PHONE", p.PHONE), ("ADDRESS", p.ADDRESS), ("GITHUB", p.GITHUB),
   ("LINKEDIN", p.LINKEDIN)]

/-- Model of `fill_static_placeholders`: one `str.replace` per profile entry,
in dict order. -/
def fill_static_placeholders (p : Profile) (html : List Char) : List Char :=
  (profileItems p).foldl (fun acc kv => replaceAll acc (tokL kv.1) kv.2.data) html

/-- Conversion applied to the projects and experience prose inside
`fill_resume_template`: `text.strip().replace("\n", "<br>")`. -/
def proseToHtml (s : String) : List Char :=
  replaceAll (stripL s.data) [nlChar] "<br>".data

/-- Model of `fill_resume_template`: static placeholders first, then SUMMARY
(stripped only), PROJECTS and EXPERIENCE (stripped and newline-converted),
then SKILLS_TABLE (verbatim).  The template, read from
`resume_template.html` in the script, is a parameter. -/
def fill_resume_template (p : Profile) (template : List Char)
    (summary projects experience skills_table_html : String) : List Char :=
  let html := fill_static_placeholders p template
  let html := replaceAll html (tokL "SUMMARY") (stripL summary.data)
  let html := replaceAll html (tokL "PROJECTS") (proseToHtml projects)
  let html := replaceAll html (tokL "EXPERIENCE") (proseToHtml experience)
  replaceAll html (tokL "SKILLS_TABLE") skills_table_html.data

/-- The known placeholder keys, in the order the script replaces them: the
seven identity keys, then the four prose keys. -/
def knownKeys : List String :=
  ["FIRST_NAME", "LAST_NAME", "EMAIL", "PHONE", "ADDRESS", "GITHUB", "LINKEDIN",
   "SUMMARY", "PROJECTS", "EXPERIENCE", "SKILLS_TABLE"]

/-- The value substituted for each known key by the template-filling code. -/
def fillVals (p : Profile) (summary projects experience skills_table_html : String) :
    String → List Char
  | "FIRST_NAME" => p.FIRST_NAME.data
  | "LAST_NAME" => p.LAST_NAME.data
  | "EMAIL" => p.EMAIL.data
  | "PHONE" => p.PHONE.data
  | "ADDRESS" => p.ADDRESS.data
  | "GITHUB" => p.GITHUB.data
  | "LINKEDIN" => p.LINKEDIN.data
  | "SUMMARY" => stripL summary.data
  | "PROJECTS" => proseToHtml projects
  | "EXPERIENCE" => proseToHtml experience
  | "SKILLS_TABLE" => skills_table_html.data
  | _ => []

/-- One `str.replace` per key over a given key order; the script's filling is
this fold over `knownKeys`. -/
def applyKeys (vals : String → List Char) (ks : List String) (html : List Char) : List Char :=
  ks.foldl (fun acc k => replaceAll acc (tokL k) (vals k)) html

/-- Structured template for the amended claim C6: an alternation of literal
segments and placeholder holes. -/
inductive Seg where
  | lit : String → Seg
  | hole : String → Seg

/-- Rendering of one segment given the set of already-substituted keys. -/
def segRender (vals : String → List Char) (done : List String) : Seg → List Char
  | Seg.lit s => s.data
  | Seg.hole k => if k ∈ done then vals k else tokL k

/-- Rendering of a structured template: holes whose key is in `done` show
their value, the others show their token. -/
def renderSegs (vals : String → List Char) (done : List String) (segs : List Seg) : List Char :=
  (segs.map (segRender vals done)).flatten

/-- Decidable well-formedness of one segment for the amended claim C6:
literal segments contain no left brace and holes use known keys. -/
def segLitOK : Seg → Bool
  | Seg.lit s => s.data.all (fun c => c != lbrace)
  | Seg.hole k => decide (k ∈ knownKeys)

/-- Decidable well-formedness of a structured template. -/
def segsOK (segs : List Seg) : Bool := segs.all segLitOK

/-- Decidable brace-freeness of the substituted values. -/
def valsOK (vals : String → List Char) : Bool :=
  knownKeys.all (fun k => (vals k).all (fun c => c != lbrace))

/-- Leading HTML of the cover-letter f-string, up to the paragraph receiving
the text. -/
def coverPre : String :=
  "\n    <html><body>\n    <div class=\"container\">\n        <h2>Cover Letter</h2>\n        <p>"

/-- Trailing HTML of the cover-letter f-string. -/
def coverSuf : String := "</p>\n    </div>\n    </body></html>\n    "

/-- Model of `build_cover_letter_html`; the `job_profile` argument is
received, as in the script, but never used. -/
def build_cover_letter_html (text : String) (job_profile : JobProfile) : List Char :=
  coverPre.data ++ replaceAll text.data [nlChar] "<br>".data ++ coverSuf.data

/-- An identity profile with all fields empty, used by concrete instances. -/
def profile0 : Profile :=
  { FIRST_NAME := "", LAST_NAME := "", EMAIL := "", PHONE := "", ADDRESS := "",
    GITHUB := "", LINKEDIN := "" }

/-- A template consisting of a single SUMMARY placeholder. -/
def summaryTpl : List Char := tokL "SUMMARY"

/-- The FIRST_NAME placeholder token as a string, used as adversarial prose. -/
def firstNameTokStr : String := String.mk (tokL "FIRST_NAME")

/-- A concrete well-formed structured template for the C6 witness. -/
def segs0 : List Seg := [Seg.lit "A", Seg.hole "SUMMARY", Seg.lit "Z"]

/-- An alternative replacement order (SUMMARY first), a permutation of
`knownKeys`, used to exhibit order dependence. -/
def altOrder : List String :=
  ["SUMMARY", "FIRST_NAME", "LAST_NAME", "EMAIL", "PHONE", "ADDRESS", "GITHUB",
   "LINKEDIN", "PROJECTS", "EXPERIENCE", "SKILLS_TABLE"]

theorem build_eq_mapfilter (p : JobProfile) :
    ∀ master : List (String × List String),
      build_relevant_skills p master =
        (master.map (fun cs => (cs.1, cs.2.filter (skill_is_kept (jobTermsOf p))))).filter
          (fun cs => !cs.2.isEmpty)
  | [] => rfl
  | (c, sk) :: rest => by
    simp only [build_relevant_skills, List.map_cons, List.filter_cons]
    cases h : (sk.filter (skill_is_kept (jobTermsOf p))).isEmpty with
    | true => simpa [h] using build_eq_mapfilter p rest
    | false => simpa [h] using build_eq_mapfilter p rest

theorem spec_retains_eq (p : JobProfile) (s : String) :
    spec_retains p s = skill_is_kept (jobTermsOf p) s := by
  unfold spec_retains skill_is_kept
  have : ∀ l : List (List Char),
      (l.any fun term => containsL term (normalize_skill s) || containsL (normalize_skill s) term)
        = (l.any fun term => containsL (normalize_skill s) term || containsL term (normalize_skill s)) := by
    intro l
    induction l with
    | nil => rfl
    | cons a t ih => simp only [List.any_cons, ih, Bool.or_comm]
  simp only [this]

theorem spec_retains_fun_eq (p : JobProfile) :
    spec_retains p = skill_is_kept (jobTermsOf p) :=
  funext (spec_retains_eq p)

/-- C1: for every job profile and master catalog, the skill filter retains a
catalog skill iff its normalized form is a substring of some job term, or
some job term is a substring of it, or it belongs to the always-keep list,
with job terms drawn from `required_skills`, `preferred_skills`, `tools` and
`keywords` only; and on the profile `{"required_skills": ["sql"]}` with
catalog `{"Databases": ["MySQL", "MongoDB"]}` both skills are retained. -/
theorem c1_skill_filter_rule :
    (∀ (p : JobProfile) (master : List (String × List String)),
        build_relevant_skills p master = spec_filter p master) ∧
      build_relevant_skills sqlProfile [("Databases", ["MySQL", "MongoDB"])] =
        [("Databases", ["MySQL", "MongoDB"])] := by
  constructor
  · intro p master
    rw [build_eq_mapfilter]
    unfold spec_filter
    rw [spec_retains_fun_eq]
  · decide

/-- C2: when all four term fields are empty the filter output is exactly the
catalog restricted to always-kept skills (and the function is total, so no
error can be raised). -/
theorem c2_empty_terms (p : JobProfile) (master : List (String × List String))
    (h1 : p.required_skills = []) (h2 : p.preferred_skills = [])
    (h3 : p.tools = []) (h4 : p.keywords = []) :
    build_relevant_skills p master = always_keep_only master := by
  have hterms : jobTermsOf p = [] := by
    simp [jobTermsOf, h1, h2, h3, h4]
  have hfun : skill_is_kept (jobTermsOf p)
      = fun s => ALWAYS_KEEP.any (fun a => normalize_skill s == a.data) := by
    funext s
    simp [skill_is_kept, hterms]
  rw [build_eq_mapfilter, hfun]
  rfl

theorem c2_empty_terms_witness :
    (emptyTermsProfile.required_skills = [] ∧ emptyTermsProfile.preferred_skills = [] ∧
        emptyTermsProfile.tools = [] ∧ emptyTermsProfile.keywords = []) ∧
      build_relevant_skills emptyTermsProfile witnessCatalog = always_keep_only witnessCatalog ∧
      build_relevant_skills emptyTermsProfile witnessCatalog = [("Databases", ["MySQL"])] :=
  ⟨⟨rfl, rfl, rfl, rfl⟩,
    c2_empty_terms emptyTermsProfile witnessCatalog rfl rfl rfl rfl,
    by decide⟩

theorem build_map_fst_sublist (p : JobProfile) :
    ∀ master : List (String × List String),
      List.Sublist ((build_relevant_skills p master).map Prod.fst) (master.map Prod.fst)
  | [] => List.Sublist.slnil
  | (c, sk) :: rest => by
    simp only [build_relevant_skills, List.map_cons]
    cases h : (sk.filter (skill_is_kept (jobTermsOf p))).isEmpty with
    | true => simpa [h] using (build_map_fst_sublist p rest).cons c
    | false => simpa [h] using (build_map_fst_sublist p rest).cons₂ c

theorem build_mem_spec (p : JobProfile) :
    ∀ (master : List (String × List String)) (cat : String) (ks : List String),
      (cat, ks) ∈ build_relevant_skills p master →
        ks ≠ [] ∧ ∃ ms, (cat, ms) ∈ master ∧ List.Sublist ks ms
  | [], _, _, h => by simp [build_relevant_skills] at h
  | (c, sk) :: rest, cat, ks, h => by
    simp only [build_relevant_skills] at h
    cases hk : (sk.filter (skill_is_kept (jobTermsOf p))).isEmpty with
    | true =>
      rw [hk] at h
      simp only [if_pos rfl] at h
      obtain ⟨hne, ms, hmem, hsub⟩ := build_mem_spec p rest cat ks h
      exact ⟨hne, ms, List.mem_cons_of_mem _ hmem, hsub⟩
    | false =>
      rw [hk] at h
      simp only [Bool.false_eq_true, if_neg] at h
      rcases List.mem_cons.mp h with heq | htail
      · obtain ⟨rfl, rfl⟩ := Prod.mk.injEq .. ▸ heq
        refine ⟨?_, sk, List.mem_cons_self _ _, List.filter_sublist sk⟩
        intro hnil
        rw [hnil] at hk
        simp at hk
      · obtain ⟨hne, ms, hmem, hsub⟩ := build_mem_spec p rest cat ks htail
        exact ⟨hne, ms, List.mem_cons_of_mem _ hmem, hsub⟩

/-- C3: the filter's output is the master catalog restricted to kept entries:
category order is a subsequence of the master's category order, each output
category's skill list is a nonempty sublist (hence in master order) of that
category's master list, and no skill outside the master catalog ever appears. -/
theorem c3_catalog_restriction (p : JobProfile) (master : List (String × List String)) :
    List.Sublist ((build_relevant_skills p master).map Prod.fst) (master.map Prod.fst) ∧
      (∀ cat ks, (cat, ks) ∈ build_relevant_skills p master →
        ks ≠ [] ∧ ∃ ms, (cat, ms) ∈ master ∧ List.Sublist ks ms) ∧
      (∀ cat ks skill, (cat, ks) ∈ build_relevant_skills p master → skill ∈ ks →
        ∃ ms, (cat, ms) ∈ master ∧ skill ∈ ms) := by
  refine ⟨build_map_fst_sublist p master, build_mem_spec p master, ?_⟩
  intro cat ks skill hmem hsk
  obtain ⟨-, ms, hms, hsub⟩ := build_mem_spec p master cat ks hmem
  exact ⟨ms, hms, hsub.subset hsk⟩

theorem c3_catalog_restriction_witness :
    ∃ ms, ("Databases", ms) ∈ witnessCatalog ∧ List.Sublist ["MySQL"] ms :=
  ((c3_catalog_restriction emptyTermsProfile witnessCatalog).2.1
    "Databases" ["MySQL"] (by decide)).2

theorem build_filter_fixed (p : JobProfile) (sk : List String) :
    (sk.filter (skill_is_kept (jobTermsOf p))).filter (skill_is_kept (jobTermsOf p))
      = sk.filter (skill_is_kept (jobTermsOf p)) := by
  rw [List.filter_filter]
  exact List.filter_congr (fun x _ => Bool.and_self _)

/-- C8: filtering is idempotent: applying the skill filter to its own output
with the same job profile returns that output unchanged. -/
theorem c8_filter_idempotent (p : JobProfile) :
    ∀ master : List (String × List String),
      build_relevant_skills p (build_relevant_skills p master) = build_relevant_skills p master
  | [] => rfl
  | (c, sk) :: rest => by
    simp only [build_relevant_skills]
    cases hk : (sk.filter (skill_is_kept (jobTermsOf p))).isEmpty with
    | true => simpa [hk] using c8_filter_idempotent p rest
    | false =>
      simp only [hk, Bool.false_eq_true, if_neg, build_relevant_skills,
        build_filter_fixed p sk, if_false]
      simp [c8_filter_idempotent p rest]

theorem pairRows_length :
    ∀ skills : List String, (pairRows skills).length = (skills.length + 1) / 2
  | [] => rfl
  | [_] => by simp [pairRows]
  | _ :: _ :: rest => by
    simp only [pairRows, List.length_cons, pairRows_length rest]
    omega

theorem pairRows_flatten :
    ∀ skills : List String,
      (pairRows skills).flatMap (fun lr => [lr.1, lr.2])
        = if skills.length % 2 = 0 then skills else skills ++ [""]
  | [] => rfl
  | [a] => by simp [pairRows]
  | a :: b :: rest => by
    have h2 : rest.length + 1 + 1 = rest.length + 2 := by omega
    simp only [pairRows, List.flatMap_cons, pairRows_flatten rest, List.length_cons, h2,
      Nat.add_mod_right]
    by_cases h : rest.length % 2 = 0 <;> simp [h]

/-- C7: the table renderer emits, per category, one header row followed by
`ceil(N/2)` skill rows (`(N + 1) / 2` in natural division), the skills taken
two per row in catalog order, with a lone last skill paired with an empty
right cell when `N` is odd, and the header preceding all of the category's
skill rows. -/
theorem c7_skills_table_shape :
    (∀ fs : List (String × List String),
        generate_skills_table_html fs =
          "<table>\n"
            ++ String.intercalate "\n" (fs.flatMap (fun cs => categoryRows cs.1 cs.2))
            ++ "\n</table>") ∧
      (∀ cat skills, categoryRows cat skills
          = categoryRowHtml cat :: (pairRows skills).map (fun lr => skillRowHtml lr.1 lr.2)) ∧
      (∀ cat skills, (categoryRows cat skills).length = 1 + (skills.length + 1) / 2) ∧
      (∀ skills : List String,
        (pairRows skills).flatMap (fun lr => [lr.1, lr.2])
          = if skills.length % 2 = 0 then skills else skills ++ [""]) := by
  refine ⟨fun fs => rfl, fun cat skills => rfl, fun cat skills => ?_, pairRows_flatten⟩
  simp [categoryRows, pairRows_length skills, Nat.add_comm]

/-- C4: whenever `json.loads` fails on the response text, `extract_job_profile`
returns exactly the fixed all-empty record (the function is total, so no
exception escapes). -/
theorem c4_unparsable_fallback (json_loads : String → Option PyValue)
    (response_text : String) (h : json_loads response_text = none) :
    extract_job_profile json_loads response_text = empty_job_profile := by
  unfold extract_job_profile
  rw [h]

theorem c4_unparsable_fallback_witness :
    ((fun _ : String => (none : Option PyValue)) "not json" = none) ∧
      extract_job_profile (fun _ => none) "not json" = empty_job_profile :=
  ⟨rfl, c4_unparsable_fallback (fun _ => none) "not json" rfl⟩

/-- C9 counterexample: a response parsing to the empty JSON object (which is
not a record with the eight expected fields) is returned unchanged, not
replaced by the all-empty record. -/
theorem c9_counterexample :
    extract_job_profile (fun _ => some (PyValue.dict [])) "\x7b\x7d" = PyValue.dict [] ∧
      PyValue.dict [] ≠ empty_job_profile :=
  ⟨rfl, by simp [empty_job_profile]⟩

/-- C9 (amended): `extract_job_profile` falls back to the all-empty record
exactly when the response fails to parse; any successfully parsed value,
record-shaped or not, is returned unchanged. -/
theorem c9_parse_passthrough (json_loads : String → Option PyValue)
    (response_text : String) (v : PyValue) (h : json_loads response_text = some v) :
    extract_job_profile json_loads response_text = v := by
  unfold extract_job_profile
  rw [h]

theorem c9_parse_passthrough_witness :
    ((fun _ : String => some (PyValue.list [])) "[1]" = some (PyValue.list [])) ∧
      extract_job_profile (fun _ => some (PyValue.list [])) "[1]" = PyValue.list [] :=
  ⟨rfl, c9_parse_passthrough (fun _ => some (PyValue.list [])) "[1]" (PyValue.list []) rfl⟩

/-- C10: the cover-letter HTML depends only on the text argument: any two job
profiles give the same output, and the text is embedded with newlines
replaced by line-break tags. -/
theorem c10_cover_letter_profile_independent :
    (∀ (t : String) (p1 p2 : JobProfile),
        build_cover_letter_html t p1 = build_cover_letter_html t p2) ∧
      (∀ p : JobProfile, build_cover_letter_html "a\nb" p
          = coverPre.data ++ "a<br>b".data ++ coverSuf.data) := by
  have hmid : replaceAll "a\nb".data [nlChar] "<br>".data = "a<br>b".data := by decide
  exact ⟨fun t p1 p2 => rfl, fun p => by rw [build_cover_letter_html, hmid]⟩

theorem replaceGo_fuel (pat rep : List Char) :
    ∀ (n : Nat) (hay : List Char) (m : Nat), hay.length ≤ n → hay.length ≤ m →
      replaceGo pat rep n hay = replaceGo pat rep m hay := by
  intro n
  induction n with
  | zero =>
    intro hay m hn _
    have hnil : hay = [] := List.eq_nil_of_length_eq_zero (Nat.le_zero.mp hn)
    subst hnil
    cases m <;> rfl
  | succ n ih =>
    intro hay m hn hm
    cases hay with
    | nil => cases m <;> rfl
    | cons c rest =>
      cases m with
      | zero => simp at hm
      | succ m' =>
        simp only [replaceGo]
        by_cases hs : startsWithL (c :: rest) pat = true
        · simp only [if_pos hs]
          have hn' : (List.drop (pat.length - 1) rest).length ≤ n := by
            simp only [List.length_cons] at hn
            simp only [List.length_drop]
            omega
          have hm' : (List.drop (pat.length - 1) rest).length ≤ m' := by
            simp only [List.length_cons] at hm
            simp only [List.length_drop]
            omega
          rw [ih (List.drop (pat.length - 1) rest) m' hn' hm']
        · simp only [if_neg hs]
          have hn' : rest.length ≤ n := by
            simp only [List.length_cons] at hn
            omega
          have hm' : rest.length ≤ m' := by
            simp only [List.length_cons] at hm
            omega
          rw [ih rest m' hn' hm']

theorem replaceAll_nil (pat rep : List Char) : replaceAll [] pat rep = [] := by
  unfold replaceAll
  cases pat <;> rfl

theorem replaceAll_eq_go (pat rep : List Char) (hpat : pat ≠ []) (hay : List Char)
    (n : Nat) (hn : hay.length ≤ n) :
    replaceAll hay pat rep = replaceGo pat rep n hay := by
  cases pat with
  | nil => cases hpat rfl
  | cons d ds =>
    simp only [replaceAll, List.isEmpty_cons, Bool.false_eq_true, if_false]
    exact replaceGo_fuel (d :: ds) rep hay.length hay n (Nat.le_refl _) hn

theorem replaceAll_cons (pat rep : List Char) (hpat : pat ≠ []) (c : Char) (rest : List Char) :
    replaceAll (c :: rest) pat rep
      = if startsWithL (c :: rest) pat
          then rep ++ replaceAll (List.drop (pat.length - 1) rest) pat rep
          else c :: replaceAll rest pat rep := by
  rw [replaceAll_eq_go pat rep hpat (c :: rest) (rest.length + 1) (by simp)]
  cases pat with
  | nil => cases hpat rfl
  | cons d ds =>
    simp only [replaceGo]
    by_cases hs : startsWithL (c :: rest) (d :: ds) = true
    · simp only [if_pos hs]
      congr 1
      exact (replaceAll_eq_go (d :: ds) rep hpat _ rest.length
        (by simp only [List.length_drop]; omega)).symm
    · simp only [if_neg hs]
      rfl

theorem replaceAll_append_skip (d : Char) (p' rep : List Char) :
    ∀ (l₁ l₂ : List Char), (∀ c ∈ l₁, (c == d) = false) →
      replaceAll (l₁ ++ l₂) (d :: p') rep = l₁ ++ replaceAll l₂ (d :: p') rep
  | [], l₂, _ => by simp
  | c :: t, l₂, h => by
    have hc : (c == d) = false := h c (List.mem_cons_self c t)
    have hs : startsWithL ((c :: t) ++ l₂) (d :: p') = false := by
      simp [startsWithL, hc]
    rw [List.cons_append, replaceAll_cons (d :: p') rep (by simp) c (t ++ l₂)]
    rw [List.cons_append] at hs
    rw [hs]
    simp only [Bool.false_eq_true, if_false]
    rw [replaceAll_append_skip d p' rep t l₂ (fun x hx => h x (List.mem_cons_of_mem _ hx))]
    rfl

theorem startsWith_append_self : ∀ (pat rest : List Char), startsWithL (pat ++ rest) pat = true
  | [], rest => by cases rest <;> rfl
  | p :: ps, rest => by simp [startsWithL, startsWith_append_self ps rest]

theorem replaceAll_match_head (pat rep l₂ : List Char) (hpat : pat ≠ []) :
    replaceAll (pat ++ l₂) pat rep = rep ++ replaceAll l₂ pat rep := by
  cases pat with
  | nil => cases hpat rfl
  | cons p ps =>
    have hs := startsWith_append_self (p :: ps) l₂
    rw [List.cons_append] at hs
    rw [List.cons_append, replaceAll_cons (p :: ps) rep hpat p (ps ++ l₂), if_pos hs]
    have hdrop : List.drop ((p :: ps).length - 1) (ps ++ l₂) = l₂ := by
      simp only [List.length_cons, Nat.add_sub_cancel]
      exact List.drop_left ps l₂
    rw [hdrop]

theorem startsWith_append_cases :
    ∀ (xs rest pat : List Char), startsWithL (xs ++ rest) pat = true →
      startsWithL xs pat = true ∨ startsWithL pat xs = true
  | [], rest, pat, _ => Or.inr (by cases pat <;> rfl)
  | _ :: _, _, [], _ => Or.inl rfl
  | x :: xs', rest, p :: ps, h => by
    rw [List.cons_append] at h
    simp only [startsWithL, Bool.and_eq_true] at h
    obtain ⟨hx, hrest⟩ := h
    rcases startsWith_append_cases xs' rest ps hrest with h1 | h1
    · exact Or.inl (by simp [startsWithL, hx, h1])
    · refine Or.inr ?_
      have hx' : (p == x) = true := by
        rw [beq_iff_eq] at hx ⊢
        exact hx.symm
      simp [startsWithL, hx', h1]

theorem containsL_skip (d : Char) (p : List Char) :
    ∀ l : List Char, (∀ c ∈ l, (c == d) = false) → containsL l (d :: p) = false
  | [], _ => rfl
  | c :: t, h => by
    have hc : (c == d) = false := h c (List.mem_cons_self c t)
    simp [containsL, startsWithL, hc,
      containsL_skip d p t (fun x hx => h x (List.mem_cons_of_mem _ hx))]

theorem bne_true_of_beq_false {c d : Char} (h : (c == d) = false) : (c != d) = true := by
  simp [bne, h]

theorem beq_false_of_bne_true {c d : Char} (h : (c != d) = true) : (c == d) = false := by
  cases hcd : c == d with
  | false => rfl
  | true => rw [bne, hcd] at h; simp at h

theorem replaceAll_single_all_ne (d : Char) (rep : List Char)
    (hrep : ∀ c ∈ rep, (c == d) = false) :
    ∀ l : List Char, ∀ c ∈ replaceAll l [d] rep, (c == d) = false
  | [] => by
    rw [replaceAll_nil]
    intro c hc
    simp at hc
  | c :: t => by
    rw [replaceAll_cons [d] rep (by simp) c t]
    cases hcd : c == d with
    | true =>
      have hs : startsWithL (c :: t) [d] = true := by simp [startsWithL, hcd]
      rw [if_pos hs]
      intro x hx
      have hdrop : List.drop ([d].length - 1) t = t := by simp
      rw [hdrop] at hx
      rcases List.mem_append.mp hx with h1 | h1
      · exact hrep x h1
      · exact replaceAll_single_all_ne d rep hrep t x h1
    | false =>
      have hs : startsWithL (c :: t) [d] = false := by simp [startsWithL, hcd]
      rw [if_neg (by simp [hs])]
      intro x hx
      rcases List.mem_cons.mp hx with h1 | h1
      · subst h1; exact hcd
      · exact replaceAll_single_all_ne d rep hrep t x h1

theorem tokL_ne_nil (k : String) : tokL k ≠ [] := by simp [tokL]

theorem tokL_cons (k : String) :
    tokL k = lbrace :: (lbrace :: (k.data ++ [rbrace, rbrace])) := rfl

theorem knownKeys_shape :
    ∀ k ∈ knownKeys, k.data ≠ [] ∧ ∀ c ∈ k.data, (c == lbrace) = false := by decide

theorem knownKeys_tok_no_overlap :
    ∀ k1 ∈ knownKeys, ∀ k2 ∈ knownKeys, k1 ≠ k2 →
      startsWithL (tokL k1) (tokL k2) = false ∧ startsWithL (tokL k2) (tokL k1) = false := by
  decide

theorem rbrace_ne_lbrace : (rbrace == lbrace) = false := by decide

theorem replaceAll_other_token (k k' : String) (hk : k ∈ knownKeys) (hk' : k' ∈ knownKeys)
    (hne : k ≠ k') (rep l₂ : List Char) :
    replaceAll (tokL k' ++ l₂) (tokL k) rep = tokL k' ++ replaceAll l₂ (tokL k) rep := by
  obtain ⟨hnenil, hchars⟩ := knownKeys_shape k' hk'
  have hs1 : startsWithL (tokL k' ++ l₂) (tokL k) = false := by
    cases hcase : startsWithL (tokL k' ++ l₂) (tokL k) with
    | false => rfl
    | true =>
      rcases startsWith_append_cases (tokL k') l₂ (tokL k) hcase with h | h
      · rw [(knownKeys_tok_no_overlap k' hk' k hk (fun e => hne e.symm)).1] at h
        exact absurd h (by simp)
      · rw [(knownKeys_tok_no_overlap k' hk' k hk (fun e => hne e.symm)).2] at h
        exact absurd h (by simp)
  have hshape : tokL k' ++ l₂
      = lbrace :: (lbrace :: (k'.data ++ rbrace :: rbrace :: l₂)) := by
    simp [tokL_cons]
  have hs1' : startsWithL (lbrace :: (lbrace :: (k'.data ++ rbrace :: rbrace :: l₂)))
      (tokL k) = false := hshape ▸ hs1
  have hs2 : startsWithL (lbrace :: (k'.data ++ rbrace :: rbrace :: l₂)) (tokL k) = false := by
    cases hd : k'.data with
    | nil => exact absurd hd hnenil
    | cons c0 ktail =>
      have hc0 : (c0 == lbrace) = false := hchars c0 (by rw [hd]; exact List.mem_cons_self _ _)
      simp [tokL_cons, startsWithL, hd, hc0]
  have hchunk : ∀ c ∈ k'.data ++ [rbrace, rbrace], (c == lbrace) = false := by
    intro c hc
    rcases List.mem_append.mp hc with h | h
    · exact hchars c h
    · have hcr : c = rbrace := by
        rcases List.mem_cons.mp h with h1 | h1
        · exact h1
        · simpa using h1
      rw [hcr]
      exact rbrace_ne_lbrace
  rw [hshape]
  rw [replaceAll_cons (tokL k) rep (tokL_ne_nil k) lbrace
    (lbrace :: (k'.data ++ rbrace :: rbrace :: l₂))]
  rw [if_neg (by rw [hs1']; exact Bool.false_ne_true)]
  rw [replaceAll_cons (tokL k) rep (tokL_ne_nil k) lbrace (k'.data ++ rbrace :: rbrace :: l₂)]
  rw [if_neg (by rw [hs2]; exact Bool.false_ne_true)]
  have hassoc : k'.data ++ rbrace :: rbrace :: l₂ = (k'.data ++ [rbrace, rbrace]) ++ l₂ := by
    simp
  rw [hassoc]
  rw [tokL_cons k, replaceAll_append_skip lbrace (lbrace :: (k.data ++ [rbrace, rbrace])) rep
    (k'.data ++ [rbrace, rbrace]) l₂ hchunk]
  simp [tokL_cons]

theorem renderSegs_nil (vals : String → List Char) (done : List String) :
    renderSegs vals done [] = [] := rfl

theorem renderSegs_cons (vals : String → List Char) (done : List String) (seg : Seg)
    (rest : List Seg) :
    renderSegs vals done (seg :: rest) = segRender vals done seg ++ renderSegs vals done rest := by
  simp [renderSegs]

theorem renderSegs_replace (vals : String → List Char) (k : String) (hk : k ∈ knownKeys)
    (hvals : ∀ k' ∈ knownKeys, ∀ c ∈ vals k', (c == lbrace) = false) :
    ∀ (segs : List Seg), segsOK segs = true → ∀ done : List String,
      replaceAll (renderSegs vals done segs) (tokL k) (vals k)
        = renderSegs vals (k :: done) segs
  | [], _, done => by simp [renderSegs_nil, replaceAll_nil]
  | Seg.lit s :: rest, hok, done => by
    have hparts : (segLitOK (Seg.lit s) && segsOK rest) = true := hok
    have hlitOK : segLitOK (Seg.lit s) = true := ((Bool.and_eq_true _ _).mp hparts).1
    have hrest : segsOK rest = true := ((Bool.and_eq_true _ _).mp hparts).2
    have hlit : ∀ c ∈ s.data, (c == lbrace) = false := by
      intro c hc
      have := List.all_eq_true.mp hlitOK c hc
      exact beq_false_of_bne_true this
    rw [renderSegs_cons, renderSegs_cons]
    simp only [segRender]
    rw [tokL_cons k, replaceAll_append_skip lbrace (lbrace :: (k.data ++ [rbrace, rbrace]))
      (vals k) s.data (renderSegs vals done rest) hlit]
    rw [← tokL_cons k, renderSegs_replace vals k hk hvals rest hrest done]
  | Seg.hole k' :: rest, hok, done => by
    have hparts : (segLitOK (Seg.hole k') && segsOK rest) = true := hok
    have hholeOK : segLitOK (Seg.hole k') = true := ((Bool.and_eq_true _ _).mp hparts).1
    have hrest : segsOK rest = true := ((Bool.and_eq_true _ _).mp hparts).2
    have hk'mem : k' ∈ knownKeys := of_decide_eq_true hholeOK
    rw [renderSegs_cons, renderSegs_cons]
    simp only [segRender]
    by_cases hdone : k' ∈ done
    · have hdone' : k' ∈ k :: done := List.mem_cons_of_mem _ hdone
      rw [if_pos hdone, if_pos hdone']
      rw [tokL_cons k, replaceAll_append_skip lbrace (lbrace :: (k.data ++ [rbrace, rbrace]))
        (vals k) (vals k') (renderSegs vals done rest) (hvals k' hk'mem)]
      rw [← tokL_cons k, renderSegs_replace vals k hk hvals rest hrest done]
    · by_cases hkk : k' = k
      · subst hkk
        have hdone' : k' ∈ k' :: done := List.mem_cons_self _ _
        rw [if_neg hdone, if_pos hdone']
        rw [replaceAll_match_head (tokL k') (vals k') (renderSegs vals done rest) (tokL_ne_nil k')]
        rw [renderSegs_replace vals k' hk hvals rest hrest done]
      · have hdone' : k' ∉ k :: done := by
          intro hc
          rcases List.mem_cons.mp hc with h1 | h1
          · exact hkk h1
          · exact hdone h1
        rw [if_neg hdone, if_neg hdone']
        rw [replaceAll_other_token k k' hk hk'mem (fun e => hkk e.symm) (vals k)
          (renderSegs vals done rest)]
        rw [renderSegs_replace vals k hk hvals rest hrest done]

theorem applyKeys_renderSegs (vals : String → List Char)
    (hvals : ∀ k' ∈ knownKeys, ∀ c ∈ vals k', (c == lbrace) = false)
    (segs : List Seg) (hsegs : segsOK segs = true) :
    ∀ (ks : List String) (done : List String), (∀ x ∈ ks, x ∈ knownKeys) →
      applyKeys vals ks (renderSegs vals done segs)
        = renderSegs vals (ks.reverse ++ done) segs
  | [], done, _ => by simp [applyKeys]
  | k :: ks, done, hks => by
    simp only [applyKeys, List.foldl_cons]
    rw [renderSegs_replace vals k (hks k (List.mem_cons_self _ _)) hvals segs hsegs done]
    have := applyKeys_renderSegs vals hvals segs hsegs ks (k :: done)
      (fun x hx => hks x (List.mem_cons_of_mem _ hx))
    simp only [applyKeys] at this
    rw [this]
    simp [List.reverse_cons, List.append_assoc]

theorem renderSegs_done_congr (vals : String → List Char) :
    ∀ (segs : List Seg) (d1 d2 : List String), (∀ x, x ∈ d1 ↔ x ∈ d2) →
      renderSegs vals d1 segs = renderSegs vals d2 segs
  | [], _, _, _ => rfl
  | seg :: rest, d1, d2, h => by
    rw [renderSegs_cons, renderSegs_cons, renderSegs_done_congr vals rest d1 d2 h]
    cases seg with
    | lit s => rfl
    | hole k =>
      simp only [segRender]
      by_cases hx : k ∈ d1
      · rw [if_pos hx, if_pos ((h k).mp hx)]
      · rw [if_neg hx, if_neg (fun hc => hx ((h k).mpr hc))]

theorem renderSegs_bracefree (vals : String → List Char)
    (hvals : ∀ k ∈ knownKeys, ∀ c ∈ vals k, (c == lbrace) = false) :
    ∀ (segs : List Seg), segsOK segs = true → ∀ (done : List String),
      (∀ k ∈ knownKeys, k ∈ done) →
      ∀ c ∈ renderSegs vals done segs, (c == lbrace) = false
  | [], _, done, _ => by simp [renderSegs_nil]
  | seg :: rest, hok, done, hdone => by
    have hparts : (segLitOK seg && segsOK rest) = true := hok
    have hsegOK : segLitOK seg = true := ((Bool.and_eq_true _ _).mp hparts).1
    have hrest : segsOK rest = true := ((Bool.and_eq_true _ _).mp hparts).2
    rw [renderSegs_cons]
    intro c hc
    rcases List.mem_append.mp hc with h1 | h1
    · cases seg with
      | lit s =>
        simp only [segRender] at h1
        exact beq_false_of_bne_true (List.all_eq_true.mp hsegOK c h1)
      | hole k =>
        have hkmem : k ∈ knownKeys := of_decide_eq_true hsegOK
        simp only [segRender, if_pos (hdone k hkmem)] at h1
        exact hvals k hkmem c h1
    · exact renderSegs_bracefree vals hvals rest hrest done hdone c h1

theorem fillVals_FIRST_NAME (p : Profile) (s pr ex sk : String) :
    fillVals p s pr ex sk "FIRST_NAME" = p.FIRST_NAME.data := rfl

theorem fillVals_LAST_NAME (p : Profile) (s pr ex sk : String) :
    fillVals p s pr ex sk "LAST_NAME" = p.LAST_NAME.data := rfl

theorem fillVals_EMAIL (p : Profile) (s pr ex sk : String) :
    fillVals p s pr ex sk "EMAIL" = p.EMAIL.data := rfl

theorem fillVals_PHONE (p : Profile) (s pr ex sk : String) :
    fillVals p s pr ex sk "PHONE" = p.PHONE.data := rfl

theorem fillVals_ADDRESS (p : Profile) (s pr ex sk : String) :
    fillVals p s pr ex sk "ADDRESS" = p.ADDRESS.data := rfl

theorem fillVals_GITHUB (p : Profile) (s pr ex sk : String) :
    fillVals p s pr ex sk "GITHUB" = p.GITHUB.data := rfl

theorem fillVals_LINKEDIN (p : Profile) (s pr ex sk : String) :
    fillVals p s pr ex sk "LINKEDIN" = p.LINKEDIN.data := rfl

theorem fillVals_SUMMARY (p : Profile) (s pr ex sk : String) :
    fillVals p s pr ex sk "SUMMARY" = stripL s.data := rfl

theorem fillVals_PROJECTS (p : Profile) (s pr ex sk : String) :
    fillVals p s pr ex sk "PROJECTS" = proseToHtml pr := rfl

theorem fillVals_EXPERIENCE (p : Profile) (s pr ex sk : String) :
    fillVals p s pr ex sk "EXPERIENCE" = proseToHtml ex := rfl

theorem fillVals_SKILLS_TABLE (p : Profile) (s pr ex sk : String) :
    fillVals p s pr ex sk "SKILLS_TABLE" = sk.data := rfl

theorem fill_eq_applyKeys (p : Profile) (tpl : List Char)
    (summary projects experience skills_table_html : String) :
    fill_resume_template p tpl summary projects experience skills_table_html
      = applyKeys (fillVals p summary projects experience skills_table_html) knownKeys tpl := by
  simp only [fill_resume_template, fill_static_placeholders, profileItems, applyKeys, knownKeys,
    List.foldl_cons, List.foldl_nil, fillVals_FIRST_NAME, fillVals_LAST_NAME, fillVals_EMAIL,
    fillVals_PHONE, fillVals_ADDRESS, fillVals_GITHUB, fillVals_LINKEDIN, fillVals_SUMMARY,
    fillVals_PROJECTS, fillVals_EXPERIENCE, fillVals_SKILLS_TABLE]

theorem proseToHtml_all_ne (s : String) :
    (proseToHtml s).all (fun c => c != nlChar) = true := by
  apply List.all_eq_true.mpr
  intro c hc
  exact bne_true_of_beq_false
    (replaceAll_single_all_ne nlChar ("<br>".data) (by decide) (stripL s.data) c hc)

/-- C5 (amended): newlines in the generated projects and experience prose are
converted to line-break tags before substitution, but the summary is
substituted with only surrounding whitespace stripped, so an interior newline
in the summary appears as a raw newline where the SUMMARY placeholder stood. -/
theorem c5_newline_conversion :
    (∀ s : String, (proseToHtml s).all (fun c => c != nlChar) = true) ∧
      (∀ (p : Profile) (tpl : List Char) (summary projects experience sk : String),
        fill_resume_template p tpl summary projects experience sk
          = replaceAll (replaceAll (replaceAll (replaceAll (fill_static_placeholders p tpl)
              (tokL "SUMMARY") (stripL summary.data))
              (tokL "PROJECTS") (proseToHtml projects))
              (tokL "EXPERIENCE") (proseToHtml experience))
              (tokL "SKILLS_TABLE") sk.data) ∧
      fill_resume_template profile0 summaryTpl "a\nb" "" "" "" = ("a\nb").data :=
  ⟨proseToHtml_all_ne, fun _ _ _ _ _ _ => rfl, by decide⟩

/-- C5 counterexample: with the template consisting of the SUMMARY
placeholder and the summary text holding an interior newline, the filled
template contains that newline as a raw newline character. -/
theorem c5_counterexample :
    fill_resume_template profile0 summaryTpl "a\nb" "" "" "" = ("a\nb").data ∧
      nlChar ∈ fill_resume_template profile0 summaryTpl "a\nb" "" "" "" := by
  constructor <;> decide

/-- C6 (amended): for templates that are an alternation of brace-free literal
segments and known-key placeholder tokens, with all substituted values free
of left braces, the filling is total (no known-key token remains in the
output) and order-independent (replacing the keys in any order yields the
same string, namely the template with every token replaced by its value).
On arbitrary templates or values this fails, as the counterexample shows. -/
theorem c6_fill_total_order_independent (p : Profile)
    (summary projects experience skills_table_html : String) (segs : List Seg)
    (hsegs : segsOK segs = true)
    (hvals : valsOK (fillVals p summary projects experience skills_table_html) = true) :
    (fill_resume_template p
        (renderSegs (fillVals p summary projects experience skills_table_html) [] segs)
        summary projects experience skills_table_html
      = renderSegs (fillVals p summary projects experience skills_table_html) knownKeys segs) ∧
      (∀ k ∈ knownKeys,
        containsL
          (fill_resume_template p
            (renderSegs (fillVals p summary projects experience skills_table_html) [] segs)
            summary projects experience skills_table_html) (tokL k) = false) ∧
      (∀ ks : List String, List.Perm ks knownKeys →
        applyKeys (fillVals p summary projects experience skills_table_html) ks
            (renderSegs (fillVals p summary projects experience skills_table_html) [] segs)
          = fill_resume_template p
              (renderSegs (fillVals p summary projects experience skills_table_html) [] segs)
              summary projects experience skills_table_html) := by
  have hv : ∀ k' ∈ knownKeys,
      ∀ c ∈ fillVals p summary projects experience skills_table_html k',
        (c == lbrace) = false := by
    intro k' hk' c hc
    exact beq_false_of_bne_true
      (List.all_eq_true.mp (List.all_eq_true.mp hvals k' hk') c hc)
  have h1 : fill_resume_template p
      (renderSegs (fillVals p summary projects experience skills_table_html) [] segs)
      summary projects experience skills_table_html
      = renderSegs (fillVals p summary projects experience skills_table_html) knownKeys segs := by
    rw [fill_eq_applyKeys]
    rw [applyKeys_renderSegs (fillVals p summary projects experience skills_table_html)
      hv segs hsegs knownKeys [] (fun x hx => hx)]
    exact renderSegs_done_congr _ segs _ _ (by intro x; simp)
  refine ⟨h1, ?_, ?_⟩
  · intro k hk
    rw [h1, tokL_cons]
    exact containsL_skip lbrace _ _
      (renderSegs_bracefree _ hv segs hsegs knownKeys (fun k' h' => h'))
  · intro ks hperm
    rw [applyKeys_renderSegs (fillVals p summary projects experience skills_table_html)
      hv segs hsegs ks [] (fun x hx => hperm.mem_iff.mp hx)]
    rw [h1]
    exact renderSegs_done_congr _ segs _ _
      (by intro x; simp [List.mem_reverse, hperm.mem_iff])

theorem c6_fill_total_order_independent_witness :
    segsOK segs0 = true ∧
      valsOK (fillVals profile0 "Hello" "" "" "") = true ∧
      fill_resume_template profile0
          (renderSegs (fillVals profile0 "Hello" "" "" "") [] segs0) "Hello" "" "" ""
        = renderSegs (fillVals profile0 "Hello" "" "" "") knownKeys segs0 ∧
      renderSegs (fillVals profile0 "Hello" "" "" "") knownKeys segs0 = ("AHelloZ").data :=
  ⟨by decide, by decide,
    (c6_fill_total_order_independent profile0 "Hello" "" "" "" segs0 (by decide) (by decide)).1,
    by decide⟩

/-- C6 counterexample: with the template being the SUMMARY token and the
summary prose being the FIRST_NAME token, the FIRST_NAME token (a known key)
remains in the filled output, and performing the replacements in a different
order (a permutation of the same keys with SUMMARY first) yields a different
result. -/
theorem c6_counterexample :
    containsL (fill_resume_template profile0 summaryTpl firstNameTokStr "" "" "")
        (tokL "FIRST_NAME") = true ∧
      List.Perm altOrder knownKeys ∧
      applyKeys (fillVals profile0 firstNameTokStr "" "" "") altOrder summaryTpl
        ≠ applyKeys (fillVals profile0 firstNameTokStr "" "" "") knownKeys summaryTpl := by
  refine ⟨by decide, by decide, by decide⟩
